import Mathlib

/-!
Formal model of the NDJSON streaming relay implemented by `streamOllama` in
`server.js` of TravelInsightAI.  The relay pulls byte chunks from the upstream
response body, decodes them to text, splits the accumulated text on newline
characters, parses each trimmed line as JSON, and forwards the string-typed
`response` field (when present) to the downstream HTTP response.

Text is modelled at the level of decoded characters (`List Char`): the source
uses `TextDecoder.decode(value, \x7bstream: true\x7d)`, whose contract is that the
concatenation of its outputs equals the decode of the concatenation of its
byte inputs, so each upstream read is modelled as the piece of decoded text it
contributes.
-/

namespace TravelInsight

/-- The whitespace characters removed by JavaScript `String.prototype.trim`:
tab, LF, VT, FF, CR, space, NBSP, the Unicode `Zs` spaces, the line and
paragraph separators, and the BOM. -/
def isJsWs (c : Char) : Bool :=
  c.toNat = 0x9 || c.toNat = 0xA || c.toNat = 0xB || c.toNat = 0xC ||
  c.toNat = 0xD || c.toNat = 0x20 || c.toNat = 0xA0 || c.toNat = 0x1680 ||
  (0x2000 ≤ c.toNat && c.toNat ≤ 0x200A) ||
  c.toNat = 0x2028 || c.toNat = 0x2029 || c.toNat = 0x202F ||
  c.toNat = 0x205F || c.toNat = 0x3000 || c.toNat = 0xFEFF

/-- JavaScript `String.prototype.trim`: drop `isJsWs` characters from both
ends of the string. -/
def jsTrim (s : List Char) : List Char :=
  ((s.dropWhile isJsWs).reverse.dropWhile isJsWs).reverse

/-- `buf.indexOf('\n')` combined with the two `slice` calls of the loop body:
`none` when the buffer holds no newline, otherwise the text before the first
newline and the text after it. -/
def splitAtNl : List Char → Option (List Char × List Char)
  | [] => none
  | c :: cs =>
    if c = '\n' then some ([], cs)
    else (splitAtNl cs).map fun p => (c :: p.1, p.2)

/-- JSON values as produced by `JSON.parse`.  Numbers are kept as their
source lexeme: the relay never reads a numeric value, only the string-typed
`response` field and (never) the boolean `done` flag, so the numeric
interpretation is irrelevant to every observable of the model.  Object
fields are kept in source order; duplicate keys are resolved by
`getLast` (last occurrence wins, as in JavaScript). -/
inductive Json where
  | null
  | bool (b : Bool)
  | num (lexeme : List Char)
  | str (s : List Char)
  | arr (elems : List Json)
  | obj (fields : List (List Char × Json))

/-- The insignificant whitespace of the JSON grammar. -/
def isJsonWs (c : Char) : Bool :=
  c = ' ' || c = '\t' || c = '\n' || c = '\r'

/-- Skip insignificant JSON whitespace. -/
def skipWs (s : List Char) : List Char := s.dropWhile isJsonWs

/-- Value of one hexadecimal digit. -/
def hexVal (c : Char) : Option Nat :=
  if '0' ≤ c ∧ c ≤ '9' then some (c.toNat - '0'.toNat)
  else if 'a' ≤ c ∧ c ≤ 'f' then some (c.toNat - 'a'.toNat + 10)
  else if 'A' ≤ c ∧ c ≤ 'F' then some (c.toNat - 'A'.toNat + 10)
  else none

/-- Four hexadecimal digits of a `\u` escape. -/
def parseHex4 : List Char → Option (Nat × List Char)
  | a :: b :: c :: d :: rest => do
    let x ← hexVal a
    let y ← hexVal b
    let z ← hexVal c
    let w ← hexVal d
    pure (((x * 16 + y) * 16 + z) * 16 + w, rest)
  | _ => none

/-- Body of a JSON string after the opening quote: the decoded content and
the input after the closing quote.  Handles the escape sequences of the JSON
grammar and rejects raw control characters.  The fuel argument only bounds
recursion depth; every recursive call consumes at least one input character,
so fuel `length + 1` never runs out. -/
def lexStringBody (fuel : Nat) (s : List Char) : Option (List Char × List Char) :=
  match fuel with
  | 0 => none
  | fuel + 1 =>
    match s with
    | [] => none
    | c :: cs =>
      if c = '"' then some ([], cs)
      else if c = '\\' then
        match cs with
        | [] => none
        | e :: cs2 =>
          let push := fun (d : Char) (r : List Char) =>
            (lexStringBody fuel r).map fun p => (d :: p.1, p.2)
          if e = '"' then push '"' cs2
          else if e = '\\' then push '\\' cs2
          else if e = '/' then push '/' cs2
          else if e = 'b' then push (Char.ofNat 8) cs2
          else if e = 'f' then push (Char.ofNat 12) cs2
          else if e = 'n' then push '\n' cs2
          else if e = 'r' then push '\r' cs2
          else if e = 't' then push '\t' cs2
          else if e = 'u' then
            match parseHex4 cs2 with
            | some (n, r) => push (Char.ofNat n) r
            | none => none
          else none
      else if c.toNat < 0x20 then none
      else (lexStringBody fuel cs).map fun p => (c :: p.1, p.2)

/-- Longest digit prefix and the rest. -/
def lexDigits (s : List Char) : List Char × List Char :=
  (s.takeWhile Char.isDigit, s.dropWhile Char.isDigit)

/-- Optional fraction part `. digits` of a JSON number. -/
def lexFrac (s : List Char) : Option (List Char × List Char) :=
  match s with
  | '.' :: rest =>
    let p := lexDigits rest
    if p.1.isEmpty then none else some ('.' :: p.1, p.2)
  | _ => some ([], s)

/-- Optional exponent part `[eE] [+-]? digits` of a JSON number. -/
def lexExp (s : List Char) : Option (List Char × List Char) :=
  match s with
  | e :: rest =>
    if e = 'e' ∨ e = 'E' then
      let sgn : List Char × List Char :=
        match rest with
        | '+' :: r => (['+'], r)
        | '-' :: r => (['-'], r)
        | _ => ([], rest)
      let p := lexDigits sgn.2
      if p.1.isEmpty then none else some (e :: sgn.1 ++ p.1, p.2)
    else some ([], s)
  | [] => some ([], [])

/-- Lexeme of a JSON number: `-? (0 | [1-9][0-9]*) frac? exp?`. -/
def lexNumber (s : List Char) : Option (List Char × List Char) :=
  let neg : List Char × List Char :=
    match s with
    | '-' :: rest => (['-'], rest)
    | _ => ([], s)
  match neg.2 with
  | [] => none
  | c :: rest =>
    let ip : Option (List Char × List Char) :=
      if c = '0' then some (['0'], rest)
      else if c.isDigit then
        let p := lexDigits rest
        some (c :: p.1, p.2)
      else none
    match ip with
    | none => none
    | some (ipart, r1) =>
      match lexFrac r1 with
      | none => none
      | some (fpart, r2) =>
        match lexExp r2 with
        | none => none
        | some (epart, r3) => some (neg.1 ++ ipart ++ fpart ++ epart, r3)

mutual

/-- Parse one JSON value after skipping leading whitespace, returning the
value and the unconsumed input.  Fueled: every recursive call consumes at
least one character, so fuel `length + 1` never runs out. -/
def parseVal (fuel : Nat) (s0 : List Char) : Option (Json × List Char) :=
  match fuel with
  | 0 => none
  | fuel + 1 =>
    match skipWs s0 with
    | [] => none
    | c :: rest =>
      if c = 'n' then
        match rest with
        | 'u' :: 'l' :: 'l' :: r => some (.null, r)
        | _ => none
      else if c = 't' then
        match rest with
        | 'r' :: 'u' :: 'e' :: r => some (.bool true, r)
        | _ => none
      else if c = 'f' then
        match rest with
        | 'a' :: 'l' :: 's' :: 'e' :: r => some (.bool false, r)
        | _ => none
      else if c = '"' then
        (lexStringBody (rest.length + 1) rest).map fun p => (.str p.1, p.2)
      else if c = '-' ∨ c.isDigit then
        (lexNumber (c :: rest)).map fun p => (.num p.1, p.2)
      else if c = '\x7b' then
        match skipWs rest with
        | '\x7d' :: r => some (.obj [], r)
        | _ => parseFields fuel rest []
      else if c = '[' then
        match skipWs rest with
        | ']' :: r => some (.arr [], r)
        | _ => parseElems fuel rest []
      else none

/-- Parse the comma-separated elements of a JSON array up to `]`. -/
def parseElems (fuel : Nat) (s : List Char) (acc : List Json) :
    Option (Json × List Char) :=
  match fuel with
  | 0 => none
  | fuel + 1 =>
    match parseVal fuel s with
    | none => none
    | some (v, r) =>
      match skipWs r with
      | ',' :: r2 => parseElems fuel r2 (acc ++ [v])
      | ']' :: r2 => some (.arr (acc ++ [v]), r2)
      | _ => none

/-- Parse the comma-separated `"key" : value` members of a JSON object up
to the closing brace. -/
def parseFields (fuel : Nat) (s : List Char) (acc : List (List Char × Json)) :
    Option (Json × List Char) :=
  match fuel with
  | 0 => none
  | fuel + 1 =>
    match skipWs s with
    | '"' :: r =>
      match lexStringBody (r.length + 1) r with
      | none => none
      | some (key, r1) =>
        match skipWs r1 with
        | ':' :: r2 =>
          match parseVal fuel r2 with
          | none => none
          | some (v, r3) =>
            match skipWs r3 with
            | ',' :: r4 => parseFields fuel r4 (acc ++ [(key, v)])
            | '\x7d' :: r4 => some (.obj (acc ++ [(key, v)]), r4)
            | _ => none
        | _ => none
    | _ => none

end

/-- `JSON.parse` on a whole string: one value, with only whitespace allowed
after it; anything else is a parse failure (the `catch` branch in the
source). -/
def jsonParse (t : List Char) : Option Json :=
  match parseVal (t.length + 1) t with
  | some (j, rest) => if skipWs rest = [] then some j else none
  | none => none

/-- The field name the relay reads from each record. -/
def respKey : List Char := "response".toList

/-- Property lookup on a parsed object: the value of the last binding of
`key`, mirroring how `JSON.parse` resolves duplicate keys. -/
def getLast (fields : List (List Char × Json)) (key : List Char) : Option Json :=
  fields.foldl (fun acc kv => if kv.1 = key then some kv.2 else acc) none

/-- `typeof obj.response === 'string' ? obj.response : nothing`.  Property
access on a non-object either yields `undefined` (number, string, boolean,
array) or throws inside the surrounding `try` (null); in every case no
fragment is produced, so all non-object values map to `none`. -/
def jsGetResponse (j : Json) : Option (List Char) :=
  match j with
  | .obj fields =>
    match getLast fields respKey with
    | some (.str s) => some s
    | _ => none
  | _ => none

/-- The per-line treatment shared by the loop body and the final-buffer
flush: trim the line, skip it when blank, otherwise `JSON.parse` it inside
`try` and write the string-typed `response` field if there is one. -/
def emitLine (rawLine : List Char) : Option (List Char) :=
  let line := jsTrim rawLine
  if line = [] then none
  else
    match jsonParse line with
    | some j => jsGetResponse j
    | none => none

/-- One observable event on the downstream HTTP response: a status head, a
body write, or the end of the response. -/
inductive Ev where
  | head (status : Nat)
  | write (s : List Char)
  | endR
deriving DecidableEq

/-- The downstream HTTP response (`res`): whether headers were already sent,
the ordered trace of observable events, and whether the response has been
ended. -/
structure Res where
  headersSent : Bool
  trace : List Ev
  ended : Bool
deriving DecidableEq

/-- A response on which nothing has happened yet. -/
def Res.fresh : Res := ⟨false, [], false⟩

/-- `res.write(s)`. -/
def Res.w (r : Res) (s : List Char) : Res :=
  { r with trace := r.trace ++ [.write s] }

/-- The error message of Node's `ERR_HTTP_HEADERS_SENT`. -/
def headersSentMsg : List Char :=
  "Cannot write headers after they are sent to the client".toList

/-- `res.writeHead(status, ...)`: throws `ERR_HTTP_HEADERS_SENT` when the
headers were already sent, otherwise marks them sent.  A thrown error
carries the response state at the throw point together with the error
message. -/
def Res.wHead (r : Res) (status : Nat) : Except (Res × List Char) Res :=
  if r.headersSent then .error (r, headersSentMsg)
  else .ok { r with headersSent := true, trace := r.trace ++ [.head status] }

/-- `res.end()`. -/
def Res.endResp (r : Res) : Res :=
  { r with trace := r.trace ++ [.endR], ended := true }

/-- `res.end(s)`: one final write followed by the end of the response. -/
def Res.endWith (r : Res) (s : List Char) : Res :=
  { r with trace := r.trace ++ [.write s, .endR], ended := true }

/-- The inner `while ((idx = buf.indexOf('\n')) >= 0)` loop of
`streamOllama`: as long as the buffer holds a newline, cut off the first
line, trim it, skip it when blank, otherwise parse it and write the
string-typed `response` field to `res`; the buffer keeps what follows the
newline. -/
def processBufF : Nat → Res → List Char → Res × List Char
  | 0, res, buf => (res, buf)
  | fuel + 1, res, buf =>
    match splitAtNl buf with
    | none => (res, buf)
    | some (line, rest) =>
      processBufF fuel
        (match emitLine line with
         | some s => res.w s
         | none => res)
        rest

/-- Entry point of the inner loop.  The fuel only bounds the number of
iterations; each iteration removes at least the newline from the buffer, so
`buf.length + 1` iterations always suffice (`processBufF_spec` is proved
for every sufficient fuel). -/
def processBuf (res : Res) (buf : List Char) : Res × List Char :=
  processBufF (buf.length + 1) res buf

/-- The outer `while (true)` read loop of `streamOllama`, restricted to the
successful reads: each chunk of decoded text is appended to the buffer and
the buffer is drained of complete lines. -/
def readLoop : Res → List Char → List (List Char) → Res × List Char
  | res, buf, [] => (res, buf)
  | res, buf, chunk :: chunks =>
    let p := processBuf res (buf ++ chunk)
    readLoop p.1 p.2 chunks

/-- Specification view of line framing: all complete (newline-terminated)
lines of a text, in order, and the remainder after the last newline. -/
def extractLines (buf : List Char) : List (List Char) × List Char :=
  match h : splitAtNl buf with
  | none => ([], buf)
  | some (line, rest) =>
    let p := extractLines rest
    (line :: p.1, p.2)
termination_by buf.length
decreasing_by
  revert h
  induction buf generalizing line rest with
  | nil => intro h; simp [splitAtNl] at h
  | cons c cs ih =>
    intro h
    rw [splitAtNl] at h
    by_cases hc : c = '\n'
    · rw [if_pos hc] at h
      cases h
      simp
    · rw [if_neg hc] at h
      cases hs : splitAtNl cs with
      | none => rw [hs] at h; simp at h
      | some p =>
        rw [hs] at h
        simp only [Option.map_some'] at h
        cases h
        have := ih p.1 p.2 hs
        simp only [List.length_cons]
        omega

/-- Specification view of the fragments produced from a complete input
text: the decoded fragments of every complete line, followed by the decoded
fragment (if any) of the final unterminated remainder. -/
def specFragments (full : List Char) : List (List Char) :=
  ((extractLines full).1.filterMap emitLine) ++ (emitLine (extractLines full).2).toList

/-- Specification view of the Text Buffer from §3 of the spec: what follows
the last newline of the text received so far (the whole text when it holds
no newline). -/
def specAfterLastNl (s : List Char) : List Char :=
  (s.reverse.takeWhile (· ≠ '\n')).reverse

/-- A stream consisting of the given lines, each terminated by `'\n'`. -/
def nlJoin (ls : List (List Char)) : List Char :=
  (ls.map (· ++ ['\n'])).flatten

/-- What the model knows about one upstream `fetch` response: `ok` is
`r.ok`, `hasBody` is whether `r.body` is present, `errText` is what
`r.text()` yields in the failure branch, `chunks` are the decoded texts of
the successful `reader.read()` results in order, and `readErr` tells
whether the read after the last chunk rejects (upstream drops mid-stream,
with message `readErrMsg`) instead of resolving `done`. -/
structure Upstream where
  ok : Bool
  hasBody : Bool
  errText : List Char
  chunks : List (List Char)
  readErr : Bool
  readErrMsg : List Char

/-- `streamOllama` from the upstream response on: reject upstream failures
with a single 500 error response; otherwise send the 200 head, run the read
loop, and on clean end-of-stream flush the final partial line and end the
response.  A rejecting read makes the `await` throw, which leaves the
function before the flush and the `res.end()`; the `.error` result carries
the response state and the thrown message. -/
def streamOllama (u : Upstream) (res : Res) : Except (Res × List Char) Res :=
  if !u.ok || !u.hasBody then
    match res.wHead 500 with
    | .error e => .error e
    | .ok r => .ok (r.endWith ("Ollama error: ".toList ++ u.errText))
  else
    match res.wHead 200 with
    | .error e => .error e
    | .ok r =>
      let p := readLoop r [] u.chunks
      if u.readErr then .error (p.1, u.readErrMsg)
      else
        .ok (match emitLine p.2 with
             | some s => p.1.w s
             | none => p.1).endResp

/-- The `POST /chat-stream` route from the `await streamOllama(...)` call on
(the body already parsed and the prompt non-empty): a thrown error is
caught and answered with `res.writeHead(500)` and `res.end('Stream error: '
+ e.message)` — but when the headers were already sent, that `writeHead`
itself throws and the rejection escapes the route handler, leaving the
response as it was.  The boolean of the result tells whether an unhandled
rejection escaped. -/
def chatStreamRoute (u : Upstream) : Res × Bool :=
  match streamOllama u Res.fresh with
  | .ok r => (r, false)
  | .error (r, msg) =>
    match r.wHead 500 with
    | .ok r2 => (r2.endWith ("Stream error: ".toList ++ msg), false)
    | .error (r2, _) => (r2, true)

/-! ## Properties of the line framing -/

theorem splitAtNl_eq_none {s : List Char} : splitAtNl s = none ↔ '\n' ∉ s := by
  induction s with
  | nil => simp [splitAtNl]
  | cons c cs ih =>
    by_cases hc : c = '\n'
    · subst hc; simp [splitAtNl]
    · rw [splitAtNl, if_neg hc]
      cases hs : splitAtNl cs with
      | none =>
        simp only [Option.map_none', List.mem_cons, not_or]
        constructor
        · intro _
          exact ⟨fun he => hc he.symm, ih.mp hs⟩
        · intro _
          trivial
      | some p =>
        simp only [Option.map_some']
        constructor
        · intro h; simp at h
        · intro h
          simp only [List.mem_cons, not_or] at h
          exact absurd hs (by rw [ih.mpr h.2]; simp)

theorem splitAtNl_eq_some {s l r : List Char}
    (h : splitAtNl s = some (l, r)) : s = l ++ '\n' :: r ∧ '\n' ∉ l := by
  induction s generalizing l r with
  | nil => simp [splitAtNl] at h
  | cons c cs ih =>
    by_cases hc : c = '\n'
    · subst hc
      rw [splitAtNl, if_pos rfl] at h
      cases h
      simp
    · rw [splitAtNl, if_neg hc] at h
      cases hs : splitAtNl cs with
      | none => rw [hs] at h; simp at h
      | some p =>
        rw [hs] at h
        simp only [Option.map_some', Option.some.injEq] at h
        cases h
        obtain ⟨h1, h2⟩ := ih hs
        constructor
        · rw [h1]; rfl
        · simp only [List.mem_cons]
          push_neg
          exact ⟨fun he => hc he.symm, h2⟩

theorem splitAtNl_length {s l r : List Char}
    (h : splitAtNl s = some (l, r)) : r.length < s.length := by
  obtain ⟨hs, -⟩ := splitAtNl_eq_some h
  subst hs
  simp only [List.length_append, List.length_cons]
  omega

theorem splitAtNl_append {s l r : List Char} (t : List Char)
    (h : splitAtNl s = some (l, r)) :
    splitAtNl (s ++ t) = some (l, r ++ t) := by
  induction s generalizing l r with
  | nil => simp [splitAtNl] at h
  | cons c cs ih =>
    by_cases hc : c = '\n'
    · subst hc
      rw [splitAtNl, if_pos rfl] at h
      cases h
      rw [List.cons_append, splitAtNl, if_pos rfl]
    · rw [splitAtNl, if_neg hc] at h
      cases hs : splitAtNl cs with
      | none => rw [hs] at h; simp at h
      | some p =>
        rw [hs] at h
        simp only [Option.map_some', Option.some.injEq] at h
        cases h
        rw [List.cons_append, splitAtNl, if_neg hc, ih hs]
        rfl

theorem splitAtNl_of_parts {l : List Char} (r : List Char) (hl : '\n' ∉ l) :
    splitAtNl (l ++ '\n' :: r) = some (l, r) := by
  induction l with
  | nil => rw [List.nil_append, splitAtNl, if_pos rfl]
  | cons c cs ih =>
    simp only [List.mem_cons] at hl
    push_neg at hl
    rw [List.cons_append, splitAtNl, if_neg (fun he => hl.1 he.symm),
      ih hl.2]
    rfl

theorem extractLines_of_none {buf : List Char} (h : splitAtNl buf = none) :
    extractLines buf = ([], buf) := by
  rw [extractLines.eq_def, h]

theorem extractLines_of_some {buf line rest : List Char}
    (h : splitAtNl buf = some (line, rest)) :
    extractLines buf = (line :: (extractLines rest).1, (extractLines rest).2) := by
  rw [extractLines.eq_def, h]

/-- After draining, the retained remainder holds no newline. -/
theorem extractLines_snd_no_nl (buf : List Char) : '\n' ∉ (extractLines buf).2 := by
  cases h : splitAtNl buf with
  | none =>
    rw [extractLines_of_none h]
    exact splitAtNl_eq_none.mp h
  | some p =>
    have h2 : splitAtNl buf = some (p.1, p.2) := by rw [h]
    rw [extractLines_of_some h2]
    exact extractLines_snd_no_nl p.2
termination_by buf.length
decreasing_by exact splitAtNl_length h2

/-- Extracting lines from a text with no newline yields no line. -/
theorem extractLines_no_nl {buf : List Char} (h : '\n' ∉ buf) :
    extractLines buf = ([], buf) :=
  extractLines_of_none (splitAtNl_eq_none.mpr h)

/-- Draining a concatenation: the lines of `s` come first, then the lines
obtained from `s`'s remainder joined with `t`. -/
theorem extractLines_append (s t : List Char) :
    extractLines (s ++ t) =
      ((extractLines s).1 ++ (extractLines ((extractLines s).2 ++ t)).1,
       (extractLines ((extractLines s).2 ++ t)).2) := by
  cases h : splitAtNl s with
  | none =>
    rw [extractLines_of_none h]
    simp
  | some p =>
    have h' : splitAtNl s = some (p.1, p.2) := by rw [h]
    rw [extractLines_of_some h',
      extractLines_of_some (splitAtNl_append t h'),
      extractLines_append p.2 t]
    simp
termination_by s.length
decreasing_by exact splitAtNl_length h'

/-! ## Trace characterization of the relay loop -/

/-- With sufficient fuel, the inner loop writes exactly the decoded
fragments of the complete lines of the buffer, in order, and retains the
remainder. -/
theorem processBufF_spec (fuel : Nat) :
    ∀ (res : Res) (buf : List Char), buf.length < fuel →
    processBufF fuel res buf =
      ({ res with trace :=
          res.trace ++ (((extractLines buf).1.filterMap emitLine).map Ev.write) },
       (extractLines buf).2) := by
  induction fuel with
  | zero => intro res buf h; omega
  | succ fuel ih =>
    intro res buf h
    rw [processBufF]
    split
    next heq =>
      rw [extractLines_of_none heq]
      simp
    next line rest heq =>
      have hlen := splitAtNl_length heq
      rw [extractLines_of_some heq, ih _ rest (by omega)]
      cases he : emitLine line with
      | none => simp [he]
      | some s => simp [he, Res.w, List.append_assoc]

/-- The inner loop writes exactly the decoded fragments of the complete
lines of the buffer, in order, and retains the remainder. -/
theorem processBuf_spec (res : Res) (buf : List Char) :
    processBuf res buf =
      ({ res with trace :=
          res.trace ++ (((extractLines buf).1.filterMap emitLine).map Ev.write) },
       (extractLines buf).2) :=
  processBufF_spec (buf.length + 1) res buf (Nat.lt_succ_self _)

/-- The read loop writes exactly the decoded fragments of the complete
lines of the whole received text, in order, and its buffer ends as the
remainder after the last newline. -/
theorem readLoop_spec (res : Res) (buf : List Char) (chunks : List (List Char))
    (hb : '\n' ∉ buf) :
    readLoop res buf chunks =
      ({ res with trace := res.trace ++
          (((extractLines (buf ++ chunks.flatten)).1.filterMap emitLine).map Ev.write) },
       (extractLines (buf ++ chunks.flatten)).2) := by
  induction chunks generalizing res buf with
  | nil =>
    simp only [readLoop, List.flatten_nil, List.append_nil]
    rw [extractLines_no_nl hb]
    simp
  | cons c cs ih =>
    simp only [readLoop]
    rw [processBuf_spec res (buf ++ c)]
    rw [ih _ _ (extractLines_snd_no_nl (buf ++ c))]
    have hassoc : buf ++ (c :: cs).flatten = (buf ++ c) ++ cs.flatten := by
      simp [List.append_assoc]
    rw [hassoc, extractLines_append (buf ++ c) cs.flatten]
    simp [List.append_assoc]

/-- On an upstream that accepted the request and ends cleanly,
`streamOllama` sends the 200 head, writes exactly the fragments of the
concatenated upstream text in order, ends the response, and returns
normally. -/
theorem streamOllama_ok_trace (u : Upstream) (hok : u.ok = true)
    (hbody : u.hasBody = true) (hre : u.readErr = false) :
    streamOllama u Res.fresh =
      .ok ⟨true, .head 200 :: ((specFragments u.chunks.flatten).map Ev.write ++ [.endR]), true⟩ := by
  unfold streamOllama
  rw [hok, hbody, hre]
  simp only [Bool.not_true, Bool.or_self, Bool.false_eq_true, if_false]
  rw [show Res.fresh.wHead 200 = .ok ⟨true, [.head 200], false⟩ from rfl]
  simp only []
  rw [readLoop_spec _ [] u.chunks (by simp)]
  simp only [List.nil_append]
  rw [specFragments]
  cases he : emitLine (extractLines u.chunks.flatten).2 with
  | none => simp [he, Res.endResp]
  | some s => simp [he, Res.w, Res.endResp, List.append_assoc]

/-- On an upstream that accepted the request but whose next read rejects
mid-stream, `streamOllama` has sent the 200 head and the fragments of all
complete lines received, has not ended the response, and propagates the
read error. -/
theorem streamOllama_err_trace (u : Upstream) (hok : u.ok = true)
    (hbody : u.hasBody = true) (hre : u.readErr = true) :
    streamOllama u Res.fresh =
      .error (⟨true,
        .head 200 :: (((extractLines u.chunks.flatten).1.filterMap emitLine).map Ev.write),
        false⟩, u.readErrMsg) := by
  unfold streamOllama
  rw [hok, hbody, hre]
  simp only [Bool.not_true, Bool.or_self, Bool.false_eq_true, if_false]
  rw [show Res.fresh.wHead 200 = .ok ⟨true, [.head 200], false⟩ from rfl]
  simp only []
  rw [readLoop_spec _ [] u.chunks (by simp)]
  simp

/-- The `/chat-stream` route on a mid-stream upstream failure: the catch
block's `writeHead` throws because the headers are already sent, so the
rejection escapes the handler and the response stays exactly as the relay
left it — 200 head, the flushed fragments, and no end. -/
theorem chatStreamRoute_err_trace (u : Upstream) (hok : u.ok = true)
    (hbody : u.hasBody = true) (hre : u.readErr = true) :
    chatStreamRoute u =
      (⟨true,
        .head 200 :: (((extractLines u.chunks.flatten).1.filterMap emitLine).map Ev.write),
        false⟩, true) := by
  unfold chatStreamRoute
  rw [streamOllama_err_trace u hok hbody hre]
  rfl

/-- On an upstream failure status or missing body, `streamOllama` answers
with a single 500 error message and ends the response; the relay loop never
runs. -/
theorem streamOllama_reject (u : Upstream) (h : (!u.ok || !u.hasBody) = true) :
    streamOllama u Res.fresh =
      .ok ⟨true, [.head 500, .write ("Ollama error: ".toList ++ u.errText), .endR], true⟩ := by
  unfold streamOllama
  rw [h]
  simp [Res.wHead, Res.fresh, Res.endWith]

/-! ## Support lemmas about inputs of particular shapes -/

/-- Extracting lines from newline-terminated lines followed by a
newline-free remainder recovers exactly those lines and that remainder. -/
theorem extractLines_nlJoin {ls : List (List Char)} {rem : List Char}
    (hls : ∀ l ∈ ls, '\n' ∉ l) (hrem : '\n' ∉ rem) :
    extractLines (nlJoin ls ++ rem) = (ls, rem) := by
  induction ls with
  | nil =>
    rw [show nlJoin [] ++ rem = rem by simp [nlJoin]]
    exact extractLines_no_nl hrem
  | cons l ls ih =>
    have hstep : nlJoin (l :: ls) ++ rem = l ++ '\n' :: (nlJoin ls ++ rem) := by
      simp [nlJoin, List.append_assoc]
    rw [hstep,
      extractLines_of_some (splitAtNl_of_parts _ (hls l (by simp))),
      ih (fun x hx => hls x (by simp [hx]))]

/-- If `f` maps every element of `ls` to `some`, collecting the results of
`f` over `ls` yields exactly those values. -/
theorem filterMap_eq_of_map_some {α β : Type} (f : α → Option β) :
    ∀ (ls : List α) (fs : List β), ls.map f = fs.map some → ls.filterMap f = fs := by
  intro ls
  induction ls with
  | nil =>
    intro fs h
    cases fs with
    | nil => rfl
    | cons b bs => simp at h
  | cons a as ih =>
    intro fs h
    cases fs with
    | nil => simp at h
    | cons b bs =>
      simp only [List.map_cons, List.cons.injEq] at h
      rw [List.filterMap_cons, h.1, ih bs h.2]

/-- Appending one trailing whitespace character does not change the result
of `jsTrim`. -/
theorem jsTrim_append_ws {c : Char} (hc : isJsWs c = true) (l : List Char) :
    jsTrim (l ++ [c]) = jsTrim l := by
  unfold jsTrim
  rw [List.dropWhile_append]
  cases hd : (l.dropWhile isJsWs).isEmpty with
  | true =>
    simp only [if_pos rfl]
    rw [List.isEmpty_iff] at hd
    rw [hd]
    simp [List.dropWhile, hc]
  | false =>
    simp only [Bool.false_eq_true, if_false]
    rw [List.reverse_append]
    simp [List.dropWhile, hc]

/-- A trailing carriage return is invisible to the per-line decoding. -/
theorem emitLine_append_cr (l : List Char) : emitLine (l ++ ['\r']) = emitLine l := by
  unfold emitLine
  rw [jsTrim_append_ws (by decide) l]

/-- `takeWhile` of "not a newline" never looks past a newline. -/
theorem takeWhile_ne_nl_append (xs ys : List Char) :
    (xs ++ '\n' :: ys).takeWhile (· ≠ '\n') = xs.takeWhile (· ≠ '\n') := by
  induction xs with
  | nil => simp [List.takeWhile]
  | cons c cs ih =>
    by_cases hc : c = '\n'
    · subst hc
      simp [List.takeWhile]
    · simp only [List.cons_append, List.takeWhile_cons]
      rw [ih]

/-- On a newline-free list, `takeWhile` of "not a newline" is the whole
list. -/
theorem takeWhile_ne_nl_of_no_nl {xs : List Char} (h : '\n' ∉ xs) :
    xs.takeWhile (· ≠ '\n') = xs := by
  induction xs with
  | nil => rfl
  | cons c cs ih =>
    simp only [List.mem_cons, not_or] at h
    rw [List.takeWhile_cons, if_pos (by simpa using fun he => h.1 he.symm)]
    rw [ih h.2]

/-- The remainder retained by line extraction is exactly the text after the
last newline received. -/
theorem extractLines_snd_eq_afterLastNl (s : List Char) :
    (extractLines s).2 = specAfterLastNl s := by
  cases h : splitAtNl s with
  | none =>
    rw [extractLines_of_none h]
    have hno : '\n' ∉ s := splitAtNl_eq_none.mp h
    rw [specAfterLastNl, takeWhile_ne_nl_of_no_nl (by simpa using hno)]
    exact (List.reverse_reverse s).symm
  | some p =>
    have h' : splitAtNl s = some (p.1, p.2) := by rw [h]
    obtain ⟨hs, -⟩ := splitAtNl_eq_some h'
    rw [extractLines_of_some h', extractLines_snd_eq_afterLastNl p.2]
    rw [specAfterLastNl, specAfterLastNl, hs]
    rw [show (p.1 ++ '\n' :: p.2).reverse = p.2.reverse ++ '\n' :: p.1.reverse by
      simp]
    rw [takeWhile_ne_nl_append]
termination_by s.length
decreasing_by exact splitAtNl_length h'

/-! ## Properties of the record decoder -/

theorem jsonParse_nil : jsonParse ([] : List Char) = none := rfl

/-- When the trimmed line parses, the per-line treatment reduces to the
property access on the parsed value. -/
theorem emitLine_of_parse {line : List Char} {j : Json}
    (h : jsonParse (jsTrim line) = some j) :
    emitLine line = jsGetResponse j := by
  unfold emitLine
  by_cases he : jsTrim line = []
  · rw [he, jsonParse_nil] at h
    simp at h
  · rw [if_neg he, h]

/-- When the trimmed line fails to parse, nothing is emitted. -/
theorem emitLine_of_parse_fail {line : List Char}
    (h : jsonParse (jsTrim line) = none) : emitLine line = none := by
  unfold emitLine
  by_cases he : jsTrim line = []
  · rw [if_pos he]
  · rw [if_neg he, h]

/-- Appending one extra binding resolves lookups of other keys as before. -/
theorem getLast_append_single (fields : List (List Char × Json))
    (k key : List Char) (v : Json) :
    getLast (fields ++ [(k, v)]) key =
      if k = key then some v else getLast fields key := by
  simp [getLast, List.foldl_append]

/-- The fragments of a text starting with one complete line: that line's
fragment (if any) followed by the fragments of the rest. -/
theorem specFragments_cons {line : List Char} (rest : List Char)
    (hnl : '\n' ∉ line) :
    specFragments (line ++ '\n' :: rest) =
      (emitLine line).toList ++ specFragments rest := by
  rw [specFragments, specFragments,
    extractLines_of_some (splitAtNl_of_parts rest hnl)]
  cases he : emitLine line with
  | none => simp [List.filterMap_cons, he]
  | some s => simp [List.filterMap_cons, he]

/-! ## Claims -/

/-- **C1**: for every sequence of chunks whose concatenation forms N
newline-terminated JSON lines, each with a string-typed `response` field,
the relay writes exactly those N fragment strings downstream, in line
order, independent of how the text is split across chunks (including
splits mid-line and mid-field), and then ends the response. -/
theorem c1_fragments_in_order_chunking_independent (u : Upstream)
    (ls frags : List (List Char))
    (hok : u.ok = true) (hbody : u.hasBody = true) (hre : u.readErr = false)
    (hjoin : u.chunks.flatten = nlJoin ls)
    (hnl : ∀ l ∈ ls, '\n' ∉ l)
    (hfrag : ls.map emitLine = frags.map some) :
    streamOllama u Res.fresh =
      .ok ⟨true, .head 200 :: (frags.map Ev.write ++ [.endR]), true⟩ := by
  have hext : extractLines (nlJoin ls) = (ls, []) := by
    have := extractLines_nlJoin hnl (show '\n' ∉ ([] : List Char) by simp)
    simpa using this
  rw [streamOllama_ok_trace u hok hbody hre, hjoin, specFragments, hext,
    filterMap_eq_of_map_some _ ls frags hfrag]
  simp [emitLine, jsTrim]

/-- **C3**: on end-of-stream, a non-empty (after trimming) final remainder
is decoded exactly once, its fragment written after every complete line's
fragment and before the completion signal; a remainder that is blank after
trimming produces nothing. -/
theorem c3_final_remainder_flushed_once (u : Upstream)
    (ls : List (List Char)) (rem : List Char)
    (hok : u.ok = true) (hbody : u.hasBody = true) (hre : u.readErr = false)
    (hjoin : u.chunks.flatten = nlJoin ls ++ rem)
    (hnl : ∀ l ∈ ls, '\n' ∉ l) (hrem : '\n' ∉ rem) :
    streamOllama u Res.fresh =
      .ok ⟨true, .head 200 ::
        ((ls.filterMap emitLine).map Ev.write ++
          ((emitLine rem).toList.map Ev.write ++ [.endR])), true⟩ := by
  rw [streamOllama_ok_trace u hok hbody hre, hjoin, specFragments,
    extractLines_nlJoin hnl hrem]
  simp

/-- **C5**: on clean upstream end-of-stream the relay signals completion to
the sink exactly once — the single `endR` event is the last event of the
trace, and everything before it is a header or a fragment write. -/
theorem c5_completion_signalled_exactly_once (u : Upstream)
    (hok : u.ok = true) (hbody : u.hasBody = true) (hre : u.readErr = false) :
    ∃ ws, streamOllama u Res.fresh =
        .ok ⟨true, .head 200 :: (ws ++ [.endR]), true⟩ ∧
      Ev.endR ∉ ws ∧ (∀ e ∈ ws, ∃ s, e = Ev.write s) := by
  refine ⟨(specFragments u.chunks.flatten).map Ev.write,
    streamOllama_ok_trace u hok hbody hre, ?_, ?_⟩
  · intro hmem
    rcases List.mem_map.mp hmem with ⟨a, -, ha⟩
    cases ha
  · intro e he
    rcases List.mem_map.mp he with ⟨a, -, ha⟩
    exact ⟨a, ha.symm⟩

/-- **C6**: after processing any prefix of the chunk sequence, the Text
Buffer holds exactly the text received so far that follows the last
newline seen, and in particular contains no newline. -/
theorem c6_buffer_invariant (res : Res) (chunks : List (List Char)) (i : Nat) :
    (readLoop res [] (chunks.take i)).2 =
        specAfterLastNl (chunks.take i).flatten ∧
    '\n' ∉ (readLoop res [] (chunks.take i)).2 := by
  rw [readLoop_spec res [] (chunks.take i) (by simp)]
  simp only [List.nil_append]
  exact ⟨extractLines_snd_eq_afterLastNl _, extractLines_snd_no_nl _⟩

/-- **C4**: a framed non-empty line that fails to parse as JSON is silently
discarded: it emits nothing, the relay still returns normally (no error is
raised, the stream is not aborted), and the whole downstream trace —
including every fragment of the valid lines after it — is identical to the
trace of the same stream without the malformed line. -/
theorem c4_malformed_line_silently_discarded (bad : List Char)
    (ls1 ls2 : List (List Char))
    (hbad : jsonParse (jsTrim bad) = none) (hnlb : '\n' ∉ bad)
    (hnl : ∀ l ∈ ls1 ++ ls2, '\n' ∉ l) :
    emitLine bad = none ∧
    streamOllama ⟨true, true, [], [nlJoin (ls1 ++ bad :: ls2)], false, []⟩ Res.fresh =
      streamOllama ⟨true, true, [], [nlJoin (ls1 ++ ls2)], false, []⟩ Res.fresh ∧
    ∃ r, streamOllama ⟨true, true, [], [nlJoin (ls1 ++ bad :: ls2)], false, []⟩ Res.fresh =
      Except.ok r := by
  have hskip : emitLine bad = none := emitLine_of_parse_fail hbad
  have hnl1 : ∀ l ∈ ls1 ++ bad :: ls2, '\n' ∉ l := by
    intro l hl
    rcases List.mem_append.mp hl with h1 | h2
    · exact hnl l (List.mem_append.mpr (.inl h1))
    · rcases List.mem_cons.mp h2 with rfl | h3
      · exact hnlb
      · exact hnl l (List.mem_append.mpr (.inr h3))
  have hext1 : extractLines (nlJoin (ls1 ++ bad :: ls2)) = (ls1 ++ bad :: ls2, []) := by
    simpa using extractLines_nlJoin hnl1 (show '\n' ∉ ([] : List Char) by simp)
  have hext2 : extractLines (nlJoin (ls1 ++ ls2)) = (ls1 ++ ls2, []) := by
    simpa using extractLines_nlJoin hnl (show '\n' ∉ ([] : List Char) by simp)
  refine ⟨hskip, ?_, ?_⟩
  · rw [streamOllama_ok_trace _ rfl rfl rfl, streamOllama_ok_trace _ rfl rfl rfl]
    simp only [List.flatten_cons, List.flatten_nil, List.append_nil]
    rw [specFragments, specFragments, hext1, hext2]
    simp [List.filterMap_append, List.filterMap_cons, hskip]
  · exact ⟨_, streamOllama_ok_trace _ rfl rfl rfl⟩

/-- **C7**: the decoder never acts on a `done` field: adding a boolean
`done` binding to a record leaves the extracted fragment unchanged; the
spec's chunked scenario (whose second record carries `done: true`) emits
exactly `Hi` and ` there` and then completes; and a record with
`done: true` in the middle of the stream does not stop the relay — the
fragments of later records are still written. -/
theorem c7_done_flag_never_consulted :
    (∀ (fields : List (List Char × Json)) (b : Bool),
      jsGetResponse (.obj (fields ++ [("done".toList, .bool b)])) =
        jsGetResponse (.obj fields)) ∧
    streamOllama ⟨true, true, [],
        [("\x7b\"respon").toList, ("se\":\"Hi\"\x7d\n\x7b\"resp").toList,
         ("onse\":\" there\",\"done\":true\x7d\n").toList], false, []⟩ Res.fresh =
      .ok ⟨true, [.head 200, .write ("Hi".toList), .write (" there".toList), .endR],
        true⟩ ∧
    streamOllama ⟨true, true, [],
        [("\x7b\"response\":\"Hi\",\"done\":true\x7d\n\x7b\"response\":\" there\"\x7d\n").toList],
        false, []⟩ Res.fresh =
      .ok ⟨true, [.head 200, .write ("Hi".toList), .write (" there".toList), .endR],
        true⟩ := by
  refine ⟨?_, rfl, rfl⟩
  intro fields b
  rw [jsGetResponse, jsGetResponse, getLast_append_single,
    if_neg (by decide)]

/-- **C8**: for a line that parses as a JSON object, the emitted fragment
is exactly the string value of its `response` property when that property
is string-typed, and nothing otherwise; in either case the relay returns
normally and the fragments of the lines after it are still written. -/
theorem c8_response_field_extraction (line : List Char)
    (fields : List (List Char × Json))
    (hparse : jsonParse (jsTrim line) = some (.obj fields)) :
    emitLine line =
      (match getLast fields respKey with
       | some (.str s) => some s
       | _ => none) ∧
    (∀ (u : Upstream) (rest : List Char), u.ok = true → u.hasBody = true →
      u.readErr = false → u.chunks.flatten = line ++ '\n' :: rest → '\n' ∉ line →
      streamOllama u Res.fresh =
        .ok ⟨true, .head 200 ::
          (((emitLine line).toList ++ specFragments rest).map Ev.write ++ [.endR]),
          true⟩) := by
  constructor
  · rw [emitLine_of_parse hparse]
    rfl
  · intro u rest hok hbody hre hjoin hnl
    rw [streamOllama_ok_trace u hok hbody hre, hjoin, specFragments_cons rest hnl,
      List.map_append]

/-- **C9**: on an upstream failure status or missing body the relay
pipeline never runs: the downstream sink receives a 500 head, a single
error message, and the end of the response — no fragment is ever
written. -/
theorem c9_upstream_rejected_never_streams (u : Upstream)
    (h : u.ok = false ∨ u.hasBody = false) :
    streamOllama u Res.fresh =
      .ok ⟨true, [.head 500, .write (("Ollama error: ").toList ++ u.errText), .endR],
        true⟩ :=
  streamOllama_reject u (by rcases h with h | h <;> simp [h])

/-- **C10**: because every framed line and the final remainder are trimmed
before parsing, a CRLF-delimited stream produces exactly the same
downstream behaviour as the same stream delimited with bare LF, however
either of them is chunked. -/
theorem c10_crlf_equals_lf (ls cs1 cs2 : List (List Char))
    (hnl : ∀ l ∈ ls, '\n' ∉ l)
    (h1 : cs1.flatten = (ls.map (· ++ ['\r', '\n'])).flatten)
    (h2 : cs2.flatten = nlJoin ls) :
    streamOllama ⟨true, true, [], cs1, false, []⟩ Res.fresh =
      streamOllama ⟨true, true, [], cs2, false, []⟩ Res.fresh := by
  have hfun : (fun l : List Char => l ++ ['\r', '\n']) =
      ((· ++ ['\n']) ∘ (· ++ ['\r'])) := by
    funext l
    simp
  have hcr : (ls.map (· ++ ['\r', '\n'])).flatten = nlJoin (ls.map (· ++ ['\r'])) := by
    rw [nlJoin, List.map_map, ← hfun]
  have hnl1 : ∀ l ∈ ls.map (· ++ ['\r']), '\n' ∉ l := by
    intro l hl
    rcases List.mem_map.mp hl with ⟨a, ha, rfl⟩
    intro hmem
    rcases List.mem_append.mp hmem with hx | hx
    · exact hnl a ha hx
    · simp at hx
  have hext1 : extractLines (nlJoin (ls.map (· ++ ['\r']))) = (ls.map (· ++ ['\r']), []) := by
    simpa using extractLines_nlJoin hnl1 (show '\n' ∉ ([] : List Char) by simp)
  have hext2 : extractLines (nlJoin ls) = (ls, []) := by
    simpa using extractLines_nlJoin hnl (show '\n' ∉ ([] : List Char) by simp)
  rw [streamOllama_ok_trace _ rfl rfl rfl, streamOllama_ok_trace _ rfl rfl rfl]
  rw [h1, h2, hcr, specFragments, specFragments, hext1, hext2]
  simp only [List.filterMap_map]
  rw [show (emitLine ∘ (· ++ ['\r'])) = emitLine from funext fun l => emitLine_append_cr l]

/-- **C2 counterexample**: with one delivered line and a rejecting next
read (upstream drops mid-stream), the route leaves the response unended —
the completion signal is *not* performed — and the rejection escapes the
handler unhandled. -/
theorem c2_counterexample :
    (chatStreamRoute ⟨true, true, [], [("\x7b\"response\":\"A\"\x7d\n").toList], true,
        ("terminated").toList⟩).1.ended = false ∧
    (chatStreamRoute ⟨true, true, [], [("\x7b\"response\":\"A\"\x7d\n").toList], true,
        ("terminated").toList⟩).2 = true := by
  exact ⟨rfl, rfl⟩

/-- **C2 (amended)**: when the next upstream read fails mid-stream, the
relay stops pulling chunks and writes no error payload to the sink
(everything already flushed stays the final visible result), but it does
*not* perform the completion signal: the response is left unended with
only the 200 head and the already-flushed fragment writes on its trace,
and the rejection escapes the route handler because reporting the error
would re-send the headers. -/
theorem c2_amended_disconnect_leaves_sink_open (u : Upstream)
    (hok : u.ok = true) (hbody : u.hasBody = true) (hre : u.readErr = true) :
    ∃ ws, chatStreamRoute u = (⟨true, .head 200 :: ws, false⟩, true) ∧
      ∀ e ∈ ws, ∃ s, e = Ev.write s := by
  refine ⟨_, chatStreamRoute_err_trace u hok hbody hre, ?_⟩
  intro e he
  rcases List.mem_map.mp he with ⟨a, -, ha⟩
  exact ⟨a, ha.symm⟩

/-! ## Witnesses: the claim theorems applied at concrete inputs -/

/-- C1 applied to the spec's chunked scenario: two JSON lines split
mid-line and mid-field across three chunks emit `Hi` then ` there`. -/
theorem c1_witness :
    (([("\x7b\"respon").toList, ("se\":\"Hi\"\x7d\n\x7b\"resp").toList,
        ("onse\":\" there\",\"done\":true\x7d\n").toList] :
        List (List Char)).flatten =
      nlJoin [("\x7b\"response\":\"Hi\"\x7d").toList,
        ("\x7b\"response\":\" there\",\"done\":true\x7d").toList] ∧
     (∀ l ∈ [("\x7b\"response\":\"Hi\"\x7d").toList,
        ("\x7b\"response\":\" there\",\"done\":true\x7d").toList], '\n' ∉ l) ∧
     [("\x7b\"response\":\"Hi\"\x7d").toList,
        ("\x7b\"response\":\" there\",\"done\":true\x7d").toList].map emitLine =
       [("Hi").toList, (" there").toList].map some) ∧
    streamOllama ⟨true, true, [],
        [("\x7b\"respon").toList, ("se\":\"Hi\"\x7d\n\x7b\"resp").toList,
         ("onse\":\" there\",\"done\":true\x7d\n").toList], false, []⟩ Res.fresh =
      .ok ⟨true, [.head 200, .write (("Hi").toList), .write ((" there").toList), .endR],
        true⟩ :=
  ⟨⟨rfl, by decide, rfl⟩,
    c1_fragments_in_order_chunking_independent
      ⟨true, true, [],
        [("\x7b\"respon").toList, ("se\":\"Hi\"\x7d\n\x7b\"resp").toList,
         ("onse\":\" there\",\"done\":true\x7d\n").toList], false, []⟩
      [("\x7b\"response\":\"Hi\"\x7d").toList,
       ("\x7b\"response\":\" there\",\"done\":true\x7d").toList]
      [("Hi").toList, (" there").toList]
      rfl rfl rfl rfl (by decide) rfl⟩

/-- C3 applied to the spec's scenario: the input ends with an
unterminated `\x7b"response":"tail"\x7d` and end-of-stream flushes `tail`
exactly once, before the completion signal. -/
theorem c3_witness :
    (([("\x7b\"response\":\"tail\"\x7d").toList] : List (List Char)).flatten =
      nlJoin [] ++ ("\x7b\"response\":\"tail\"\x7d").toList ∧
     '\n' ∉ ("\x7b\"response\":\"tail\"\x7d").toList) ∧
    streamOllama ⟨true, true, [], [("\x7b\"response\":\"tail\"\x7d").toList],
        false, []⟩ Res.fresh =
      .ok ⟨true, [.head 200, .write (("tail").toList), .endR], true⟩ :=
  ⟨⟨rfl, by decide⟩,
    c3_final_remainder_flushed_once
      ⟨true, true, [], [("\x7b\"response\":\"tail\"\x7d").toList], false, []⟩
      [] (("\x7b\"response\":\"tail\"\x7d").toList)
      rfl rfl rfl rfl (by decide) (by decide)⟩

/-- C4 applied to the spec's scenario: `not-json` between two valid lines
emits nothing, raises nothing, and leaves the trace identical to the
stream without it. -/
theorem c4_witness :
    (jsonParse (jsTrim (("not-json").toList)) = none ∧
     '\n' ∉ ("not-json").toList) ∧
    (emitLine (("not-json").toList) = none ∧
     streamOllama ⟨true, true, [],
         [nlJoin [("\x7b\"response\":\"A\"\x7d").toList, ("not-json").toList,
           ("\x7b\"response\":\"B\"\x7d").toList]], false, []⟩ Res.fresh =
       streamOllama ⟨true, true, [],
         [nlJoin [("\x7b\"response\":\"A\"\x7d").toList,
           ("\x7b\"response\":\"B\"\x7d").toList]], false, []⟩ Res.fresh ∧
     ∃ r, streamOllama ⟨true, true, [],
         [nlJoin [("\x7b\"response\":\"A\"\x7d").toList, ("not-json").toList,
           ("\x7b\"response\":\"B\"\x7d").toList]], false, []⟩ Res.fresh =
       Except.ok r) :=
  ⟨⟨rfl, by decide⟩,
    c4_malformed_line_silently_discarded (("not-json").toList)
      [("\x7b\"response\":\"A\"\x7d").toList] [("\x7b\"response\":\"B\"\x7d").toList]
      rfl (by decide) (by decide)⟩

/-- C5 applied to a concrete two-line stream. -/
theorem c5_witness :
    ∃ ws, streamOllama ⟨true, true, [],
        [("\x7b\"response\":\"A\"\x7d\n\x7b\"response\":\"B\"\x7d\n").toList],
        false, []⟩ Res.fresh =
        .ok ⟨true, .head 200 :: (ws ++ [.endR]), true⟩ ∧
      Ev.endR ∉ ws ∧ (∀ e ∈ ws, ∃ s, e = Ev.write s) :=
  c5_completion_signalled_exactly_once
    ⟨true, true, [],
      [("\x7b\"response\":\"A\"\x7d\n\x7b\"response\":\"B\"\x7d\n").toList],
      false, []⟩ rfl rfl rfl

/-- C8 applied to a line whose object carries a string `response` field,
with the relay run on that line followed by one more line. -/
theorem c8_witness :
    (jsonParse (jsTrim (("\x7b\"response\":\"A\"\x7d").toList)) =
      some (.obj [(("response").toList, .str (("A").toList))])) ∧
    (emitLine (("\x7b\"response\":\"A\"\x7d").toList) =
      (match getLast [(("response").toList, Json.str (("A").toList))] respKey with
       | some (.str s) => some s
       | _ => none)) ∧
    streamOllama ⟨true, true, [],
        [("\x7b\"response\":\"A\"\x7d\n\x7b\"done\":true\x7d\n").toList], false, []⟩
        Res.fresh =
      .ok ⟨true, .head 200 ::
        (((emitLine (("\x7b\"response\":\"A\"\x7d").toList)).toList ++
            specFragments (("\x7b\"done\":true\x7d\n").toList)).map Ev.write ++
          [.endR]), true⟩ :=
  ⟨rfl,
    (c8_response_field_extraction (("\x7b\"response\":\"A\"\x7d").toList)
      [(("response").toList, .str (("A").toList))] rfl).1,
    (c8_response_field_extraction (("\x7b\"response\":\"A\"\x7d").toList)
      [(("response").toList, .str (("A").toList))] rfl).2
      ⟨true, true, [],
        [("\x7b\"response\":\"A\"\x7d\n\x7b\"done\":true\x7d\n").toList], false, []⟩
      (("\x7b\"done\":true\x7d\n").toList) rfl rfl rfl rfl (by decide)⟩

/-- C9 applied to an upstream that answered a failure status. -/
theorem c9_witness :
    (false = false ∨ true = false) ∧
    streamOllama ⟨false, true, ("boom").toList, [], false, []⟩ Res.fresh =
      .ok ⟨true, [.head 500, .write (("Ollama error: boom").toList), .endR], true⟩ :=
  ⟨Or.inl rfl,
    c9_upstream_rejected_never_streams
      ⟨false, true, ("boom").toList, [], false, []⟩ (Or.inl rfl)⟩

/-- C10 applied to a concrete two-line stream delivered once with CRLF and
once with LF line endings. -/
theorem c10_witness :
    ((∀ l ∈ [("\x7b\"response\":\"A\"\x7d").toList,
        ("\x7b\"response\":\"B\"\x7d").toList], '\n' ∉ l) ∧
     ([("\x7b\"response\":\"A\"\x7d\r\n\x7b\"response\":\"B\"\x7d\r\n").toList] :
        List (List Char)).flatten =
       ([("\x7b\"response\":\"A\"\x7d").toList,
         ("\x7b\"response\":\"B\"\x7d").toList].map (· ++ ['\r', '\n'])).flatten ∧
     ([("\x7b\"response\":\"A\"\x7d\n\x7b\"response\":\"B\"\x7d\n").toList] :
        List (List Char)).flatten =
       nlJoin [("\x7b\"response\":\"A\"\x7d").toList,
         ("\x7b\"response\":\"B\"\x7d").toList]) ∧
    streamOllama ⟨true, true, [],
        [("\x7b\"response\":\"A\"\x7d\r\n\x7b\"response\":\"B\"\x7d\r\n").toList],
        false, []⟩ Res.fresh =
      streamOllama ⟨true, true, [],
        [("\x7b\"response\":\"A\"\x7d\n\x7b\"response\":\"B\"\x7d\n").toList],
        false, []⟩ Res.fresh :=
  ⟨⟨by decide, rfl, rfl⟩,
    c10_crlf_equals_lf
      [("\x7b\"response\":\"A\"\x7d").toList, ("\x7b\"response\":\"B\"\x7d").toList]
      [("\x7b\"response\":\"A\"\x7d\r\n\x7b\"response\":\"B\"\x7d\r\n").toList]
      [("\x7b\"response\":\"A\"\x7d\n\x7b\"response\":\"B\"\x7d\n").toList]
      (by decide) rfl rfl⟩

/-- The C2 amended theorem applied to a concrete mid-stream disconnect
after one delivered line. -/
theorem c2_amended_witness :
    ∃ ws, chatStreamRoute ⟨true, true, [], [("\x7b\"response\":\"A\"\x7d\n").toList],
        true, ("terminated").toList⟩ =
      (⟨true, .head 200 :: ws, false⟩, true) ∧
      ∀ e ∈ ws, ∃ s, e = Ev.write s :=
  c2_amended_disconnect_leaves_sink_open
    ⟨true, true, [], [("\x7b\"response\":\"A\"\x7d\n").toList], true,
      ("terminated").toList⟩ rfl rfl rfl

end TravelInsight
